import Mathlib

/-!
Verification development for the uart-console repository.

The embedding models:
* `src/serial_port.rs` — the Line Framer (`extract_lines`,
  `extract_by_delimiter`, `extract_by_crlf`), the worker loop body of
  `run_serial_thread`, and `SerialPortManager::connect`;
* `src/app.rs` — the ingestion pipeline (`parse_line`, `ingest_line`,
  `reparse_all`, `compile_regex`, `clear_data`) and the
  settings-application step of `UartConsoleApp::update`;
* `src/settings.rs` — the `Settings` record and `LineEnding`.

Bytes are modeled as `Nat` (values 0..255; 13 = CR, 10 = LF).  Records
are modeled at the byte level: the source decodes each drained segment
with `String::from_utf8_lossy` and trims trailing `'\r'`/`'\n'`
characters; since 13 and 10 can never be continuation bytes of a
multi-byte UTF-8 sequence, that character-level trim coincides with the
byte-level trim `stripCRLF`, and the lossy decoding itself is a
presentation step that is injective on the framing structure (a record
is empty iff its byte content is empty).  The external `regex` crate is
modeled as an opaque record-matcher capability (`CompiledRegex` and a
compilation function passed as a parameter), exactly as the spec
prescribes for external collaborators.
-/

abbrev Byte := Nat

/-- `settings.rs`: the `LineEnding` enum (delimiter policy). -/
inductive LineEnding where
  | None
  | CR
  | LF
  | CrLf
deriving DecidableEq

/-- `settings.rs`: `LineEnding::as_bytes` (terminator appended to sends). -/
def LineEnding.as_bytes : LineEnding → List Byte
  | .None => []
  | .CR => [13]
  | .LF => [10]
  | .CrLf => [13, 10]

/-- `settings.rs`: the `AppDataBits` enum. -/
inductive AppDataBits where
  | Five
  | Six
  | Seven
  | Eight
deriving DecidableEq

/-- `settings.rs`: the `AppStopBits` enum. -/
inductive AppStopBits where
  | One
  | Two
deriving DecidableEq

/-- `settings.rs`: the `AppParity` enum. -/
inductive AppParity where
  | None
  | Odd
  | Even
deriving DecidableEq

/-- `settings.rs`: the `AppFlowControl` enum. -/
inductive AppFlowControl where
  | None
  | Software
  | Hardware
deriving DecidableEq

/-- `settings.rs`: the `Settings` struct. -/
structure Settings where
  port_name : String
  baud_rate : Nat
  data_bits : AppDataBits
  stop_bits : AppStopBits
  parity : AppParity
  flow_control : AppFlowControl
  regex_pattern : String
  column_names : String
  max_rows : Nat
  show_timestamp : Bool
  rx_line_ending : LineEnding
  tx_line_ending : LineEnding
deriving DecidableEq

/-- `settings.rs`: `impl Default for Settings`. -/
def Settings.default : Settings where
  port_name := ""
  baud_rate := 115200
  data_bits := .Eight
  stop_bits := .One
  parity := .None
  flow_control := .None
  regex_pattern := ""
  column_names := ""
  max_rows := 2000
  show_timestamp := true
  rx_line_ending := .LF
  tx_line_ending := .CrLf

/-- The byte-level counterpart of
`String::from_utf8_lossy(..).trim_end_matches(|c| c == '\r' || c == '\n')`
used on every drained segment in `serial_port.rs`: remove the trailing
run of CR/LF bytes. -/
def stripCRLF (l : List Byte) : List Byte :=
  (l.reverse.dropWhile (fun b => b == 13 || b == 10)).reverse

/-- The loop body of `serial_port.rs::extract_by_delimiter`, written with
explicit fuel so that the function is structurally recursive (each
iteration drains at least one byte, so `buf.length` fuel always
suffices; see `extract_go_congr`).  One step: find the first occurrence
of `delim` (`buf.iter().position(..)`), drain the bytes up to and
including it (`buf.drain(..=pos)`), strip trailing CR/LF, and emit the
segment unless it is empty. -/
def extract_go (delim : Byte) : Nat → List Byte → List (List Byte) × List Byte
  | 0, buf => ([], buf)
  | fuel + 1, buf =>
    match buf.dropWhile (fun b => b != delim) with
    | [] => ([], buf)
    | _ :: rest =>
      let line := stripCRLF (buf.takeWhile (fun b => b != delim) ++ [delim])
      let res := extract_go delim fuel rest
      (if line.isEmpty then res.1 else line :: res.1, res.2)

/-- `serial_port.rs::extract_by_delimiter`: repeatedly extract
delimiter-terminated segments from the buffer, returning the emitted
records (in order) and the remaining buffer. -/
def extract_by_delimiter (delim : Byte) (buf : List Byte) :
    List (List Byte) × List Byte :=
  extract_go delim buf.length buf

/-- `buf.windows(2).position(|w| w == b"\r\n")` from
`serial_port.rs::extract_by_crlf`: index of the first adjacent CR LF
pair, if any. -/
def findCRLF : List Byte → Option Nat
  | [] => none
  | x :: rest =>
    match rest with
    | [] => none
    | y :: _ =>
      if x == 13 && y == 10 then some 0
      else (findCRLF rest).map (· + 1)

/-- The loop body of `serial_port.rs::extract_by_crlf` with explicit
fuel (each iteration drains at least two bytes; see
`extract_crlf_go_congr`).  One step: find the first two-byte `\r\n`
sequence, drain through both bytes (`buf.drain(..pos + 2)`), strip
trailing CR/LF, and emit unless empty. -/
def extract_crlf_go : Nat → List Byte → List (List Byte) × List Byte
  | 0, buf => ([], buf)
  | fuel + 1, buf =>
    match findCRLF buf with
    | none => ([], buf)
    | some pos =>
      let line := stripCRLF (buf.take (pos + 2))
      let res := extract_crlf_go fuel (buf.drop (pos + 2))
      (if line.isEmpty then res.1 else line :: res.1, res.2)

/-- `serial_port.rs::extract_by_crlf`. -/
def extract_by_crlf (buf : List Byte) : List (List Byte) × List Byte :=
  extract_crlf_go buf.length buf

/-- `serial_port.rs::extract_lines`: dispatch on the delimiter policy.
Under `None` the whole non-empty buffer is flushed as one record and
the buffer cleared. -/
def extract_lines (line_ending : LineEnding) (buf : List Byte) :
    List (List Byte) × List Byte :=
  match line_ending with
  | .None => if buf.isEmpty then ([], buf) else ([buf], [])
  | .LF => extract_by_delimiter 10 buf
  | .CR => extract_by_delimiter 13 buf
  | .CrLf => extract_by_crlf buf

/-- One read's worth of the `run_serial_thread` data path: append the
newly read chunk to `rx_buf` and run the framer, accumulating emitted
records. -/
def feed_chunk (delim : Byte) (st : List (List Byte) × List Byte)
    (chunk : List Byte) : List (List Byte) × List Byte :=
  let res := extract_by_delimiter delim (st.2 ++ chunk)
  (st.1 ++ res.1, res.2)

/-- Feeding a sequence of chunks incrementally to the framer, starting
from an empty accumulator, as successive reads do in
`run_serial_thread`. -/
def feed_chunks (delim : Byte) (chunks : List (List Byte)) :
    List (List Byte) × List Byte :=
  chunks.foldl (feed_chunk delim) ([], [])

/-- Spec-side: the concatenation of records with the delimiter `10`
(`\n`) reinserted after each one. -/
def joinLF (records : List (List Byte)) : List Byte :=
  (records.map (fun r => r ++ [10])).flatten

/-- Spec-side: the prefix of the input up to and including the last
occurrence of `d` (empty when `d` does not occur). -/
def take_through_last (d : Byte) (l : List Byte) : List Byte :=
  (l.reverse.dropWhile (fun b => b != d)).reverse

/-- Spec-side: no byte 10 is immediately preceded by 13 or by 10. -/
def no_bad_pairs : List Byte → Bool
  | [] => true
  | x :: rest =>
    match rest with
    | [] => true
    | y :: _ => !(y == 10 && (x == 13 || x == 10)) && no_bad_pairs rest

/-- Spec-side: every `\n`-terminated line of the byte sequence is
non-empty and does not end in `\r` (equivalently: the sequence does not
start with 10, and no 10 is immediately preceded by 13 or 10). -/
def good_lines (l : List Byte) : Bool :=
  (match l with
   | [] => true
   | x :: _ => !(x == 10)) && no_bad_pairs l

/-- `serial_port.rs`: the `SerialCommand` enum. -/
inductive SerialCommand where
  | Send (data : List Byte)
  | Disconnect

/-- `serial_port.rs`: the `SerialEvent` enum, with `Data` carried at the
byte level (see the header comment on decoding). -/
inductive SerialEvent where
  | Data (line : List Byte)
  | Connected
  | Disconnected
  | Error (msg : String)
deriving DecidableEq

/-- Outcome of the `port.read(&mut read_buf)` call in one iteration of
`run_serial_thread`: `ok bytes` is `Ok(n)` with the bytes read, `okZero`
is `Ok(0)`, `timedOut` is `Err(TimedOut)`, `err` is any other error. -/
inductive ReadResult where
  | ok (bytes : List Byte)
  | okZero
  | timedOut
  | err (msg : String)

/-- The command-draining inner loop of `run_serial_thread`.  Each queued
command is paired with the outcome of its write, `some e` meaning
`port.write_all` failed with error `e` (ignored for `Disconnect`);
`closed` models `TryRecvError::Disconnected` once the queue is empty.
Returns the emitted events and whether the outer loop continues
(`false` = the thread returns, i.e. the worker is Stopped). -/
def process_cmds : List (SerialCommand × Option String) → Bool →
    List SerialEvent × Bool
  | [], closed =>
    if closed then ([SerialEvent.Disconnected], false) else ([], true)
  | (SerialCommand.Disconnect, _) :: _, _ => ([SerialEvent.Disconnected], false)
  | (SerialCommand.Send _, wr) :: rest, closed =>
    match wr with
    | some e =>
      let res := process_cmds rest closed
      (SerialEvent.Error ("Write error: " ++ e) :: res.1, res.2)
    | none => process_cmds rest closed

/-- One iteration of the `Running` loop of
`serial_port.rs::run_serial_thread`: drain all queued commands, then
perform one read.  Returns the events emitted during the iteration and
`some newBuf` to continue with buffer `newBuf`, or `none` when the
thread returns (the worker enters its terminal Stopped state). -/
def worker_iter (rx_line_ending : LineEnding) (rx_buf : List Byte)
    (cmds : List (SerialCommand × Option String)) (closed : Bool)
    (read : ReadResult) : List SerialEvent × Option (List Byte) :=
  let c := process_cmds cmds closed
  if c.2 then
    match read with
    | .okZero => (c.1, some rx_buf)
    | .ok bytes =>
      let res := extract_lines rx_line_ending (rx_buf ++ bytes)
      (c.1 ++ res.1.map SerialEvent.Data, some res.2)
    | .timedOut => (c.1, some rx_buf)
    | .err e =>
      (c.1 ++ [SerialEvent.Error ("Read error: " ++ e),
               SerialEvent.Disconnected], none)
  else (c.1, none)

/-- `serial_port.rs`: the controller-visible state of
`SerialPortManager` (`cmd_tx.is_some()` and `is_connected`). -/
structure SerialPortManager where
  cmd_tx : Bool
  is_connected : Bool
deriving DecidableEq

/-- `SerialPortManager::new`. -/
def SerialPortManager.new : SerialPortManager where
  cmd_tx := false
  is_connected := false

/-- `SerialPortManager::disconnect`: take the command sender and clear
the connected flag. -/
def SerialPortManager.disconnect (_m : SerialPortManager) : SerialPortManager where
  cmd_tx := false
  is_connected := false

/-- `SerialPortManager::connect`.  `openRes` models the outcome of the
external `serialport::new(..).open()` call (`Except.error e` = the OS
open failed with message `e`).  Returns the new manager state, the
`Result` returned to the caller, and whether a worker thread was
spawned by this attempt (`thread::spawn` reached).  The worker thread
is the sole producer of events, so an attempt with `spawned = false`
produces no events. -/
def SerialPortManager.connect (openRes : Except String Unit)
    (m : SerialPortManager) (settings : Settings) :
    SerialPortManager × Except String Unit × Bool :=
  let m := if m.is_connected then m.disconnect else m
  if settings.port_name.isEmpty then
    (m, Except.error "No port selected", false)
  else
    match openRes with
    | .error e =>
      (m, Except.error ("Failed to open " ++ settings.port_name ++ ": " ++ e),
       false)
    | .ok _ => ({ cmd_tx := true, is_connected := true }, Except.ok (), true)

/-- `app.rs`: the `DataRow` struct. -/
structure DataRow where
  timestamp : String
  raw : String
  columns : List String
  matched : Bool
deriving DecidableEq

/-- Model of a compiled `regex::Regex` as an opaque record-matcher
capability: `captures_len` is `Regex::captures_len()` (number of capture
groups including the implicit whole-match group), and `captures line`
models `Regex::captures(line)` — `none` means no match, `some gs` gives
groups `1..captures_len` where an unmatched group is `none` (the source
maps it to `""` via `map_or`). -/
structure CompiledRegex where
  captures_len : Nat
  captures : String → Option (List (Option String))

/-- `app.rs`: the pipeline-relevant state of `UartConsoleApp`. -/
structure UartConsoleApp where
  settings : Settings
  serial : SerialPortManager
  rows : List DataRow
  raw_log : List String
  compiled_regex : Option CompiledRegex
  send_input : String
  status_msg : String
  status_is_error : Bool
  num_columns : Nat

namespace UartConsoleApp

/-- `app.rs::set_status`. -/
def set_status (s : UartConsoleApp) (msg : String) : UartConsoleApp :=
  { s with status_msg := msg, status_is_error := false }

/-- `app.rs::set_error`. -/
def set_error (s : UartConsoleApp) (msg : String) : UartConsoleApp :=
  { s with status_msg := msg, status_is_error := true }

/-- `app.rs::parse_line`.  `now` stands for the wall-clock reading
`Local::now().format(..)` taken when timestamps are enabled. -/
def parse_line (now : String) (s : UartConsoleApp) (line : String) : DataRow :=
  let timestamp := if s.settings.show_timestamp then now else ""
  let cm : List String × Bool :=
    match s.compiled_regex with
    | some re =>
      match re.captures line with
      | some caps => (caps.map (fun m => m.getD ""), true)
      | none => (["<no match>"], false)
    | none => ([line], true)
  { timestamp, raw := line, columns := cm.1, matched := cm.2 }

/-- `app.rs::ingest_line`: append the raw line and its parsed row, then
trim both histories to `settings.max_rows` by draining from the front. -/
def ingest_line (now : String) (s : UartConsoleApp) (line : String) :
    UartConsoleApp :=
  let raw_log := s.raw_log ++ [line]
  let rows := s.rows ++ [parse_line now s line]
  let max := s.settings.max_rows
  let rows := if rows.length > max then rows.drop (rows.length - max) else rows
  let raw_log :=
    if raw_log.length > max then raw_log.drop (raw_log.length - max)
    else raw_log
  { s with rows, raw_log }

/-- `app.rs::reparse_all`: recompute every row from its own stored raw
text, leaving the raw history untouched. -/
def reparse_all (now : String) (s : UartConsoleApp) : UartConsoleApp :=
  let raws := s.rows.map (fun r => r.raw)
  { s with rows := raws.map (fun raw => parse_line now s raw) }

/-- `app.rs::compile_regex`.  `regexNew` models the external
`Regex::new` compilation capability. -/
def compile_regex (regexNew : String → Except String CompiledRegex)
    (now : String) (s : UartConsoleApp) : UartConsoleApp :=
  let pattern := s.settings.regex_pattern
  let s :=
    if pattern.isEmpty then
      { s with compiled_regex := none, num_columns := 0 }
    else
      match regexNew pattern with
      | .ok re =>
        { s with num_columns := re.captures_len - 1, compiled_regex := some re }
      | .error e =>
        let s := s.set_error ("Regex error: " ++ e)
        { s with compiled_regex := none, num_columns := 0 }
  reparse_all now s

/-- `app.rs::apply_settings`: install new settings, then recompile the
pattern (which re-parses the existing rows). -/
def apply_settings (regexNew : String → Except String CompiledRegex)
    (now : String) (s : UartConsoleApp) (settings : Settings) : UartConsoleApp :=
  compile_regex regexNew now { s with settings }

/-- `app.rs::clear_data`. -/
def clear_data (s : UartConsoleApp) : UartConsoleApp :=
  { s with rows := [], raw_log := [] }

/-- `app.rs::connect` (the app-level wrapper): call
`SerialPortManager::connect` and set the status line from the result.
The second component reports whether a worker was spawned. -/
def connect (openRes : Except String Unit) (s : UartConsoleApp) :
    UartConsoleApp × Bool :=
  let r := SerialPortManager.connect openRes s.serial s.settings
  match r.2.1 with
  | .ok _ => ((set_status { s with serial := r.1 } "Connecting..."), r.2.2)
  | .error e => ((set_error { s with serial := r.1 } e), r.2.2)

/-- The settings-application step of `UartConsoleApp::update` (app.rs
lines 496-505): decide whether a reconnect is needed (connected and the
port name or baud rate changed), apply the new settings, and reconnect
if needed.  The second component reports whether `self.connect()` was
invoked. -/
def update_apply_settings (regexNew : String → Except String CompiledRegex)
    (now : String) (openRes : Except String Unit) (s : UartConsoleApp)
    (new_settings : Settings) : UartConsoleApp × Bool :=
  let needs_reconnect := s.serial.is_connected &&
    (new_settings.port_name != s.settings.port_name ||
     new_settings.baud_rate != s.settings.baud_rate)
  let s := apply_settings regexNew now s new_settings
  if needs_reconnect then ((connect openRes s).1, true) else (s, false)

/-- The `SerialEvent::Data` arm of `app.rs::poll_serial_events` applied
to a drained batch of data events: ingest each line in order. -/
def ingest_all (now : String) (s : UartConsoleApp) (lines : List String) :
    UartConsoleApp :=
  lines.foldl (ingest_line now) s

end UartConsoleApp

/-- A fresh app state over the given settings with no compiled pattern,
as produced by `UartConsoleApp::new` before any pattern is configured:
empty histories, unconnected manager. -/
def initApp (settings : Settings) : UartConsoleApp where
  settings := settings
  serial := SerialPortManager.new
  rows := []
  raw_log := []
  compiled_regex := none
  send_input := ""
  status_msg := "Disconnected"
  status_is_error := false
  num_columns := 0

/-- Test fixture: an app with history cap 2 (the spec's cap example). -/
def appCap2 : UartConsoleApp :=
  initApp { Settings.default with max_rows := 2 }

/-- Test fixture: a matcher-compilation capability that accepts every
pattern and yields a two-group matcher matching only `"T=21.5,H=60"`. -/
def testRegexNew : String → Except String CompiledRegex :=
  fun _ =>
    Except.ok
      { captures_len := 3
        captures := fun t =>
          if t = "T=21.5,H=60" then some [some "21.5", some "60"] else none }

/-- Test fixture: a compilation capability on which every pattern fails
to compile (as `Regex::new` does on a malformed pattern such as `"("`). -/
def failRegexNew : String → Except String CompiledRegex :=
  fun _ => Except.error "unclosed group"

/-- Test fixture: an app holding one ingested row `"a"` with pattern
`"("` configured in its settings, histories consistent. -/
def appOneRow : UartConsoleApp :=
  { initApp { Settings.default with regex_pattern := "(" } with
    rows := [{ timestamp := "", raw := "a", columns := ["a"], matched := true }]
    raw_log := ["a"] }

/-- Test fixture: an app whose serial manager reports connected. -/
def appConnected : UartConsoleApp :=
  { initApp Settings.default with serial := { cmd_tx := true, is_connected := true } }

/-- The cross-history consistency invariant of the ingestion pipeline:
the Row History and the raw History have equal length, and the i-th
Row's stored raw text equals the i-th raw History entry. -/
def histInv (s : UartConsoleApp) : Prop :=
  s.rows.length = s.raw_log.length ∧
  ∀ (i : Nat) (h1 : i < s.rows.length) (h2 : i < s.raw_log.length),
    (s.rows.get ⟨i, h1⟩).raw = s.raw_log.get ⟨i, h2⟩

theorem dropWhile_cons_length_lt {p : Byte → Bool} {buf : List Byte} {x : Byte}
    {rest : List Byte} (h : buf.dropWhile p = x :: rest) :
    rest.length < buf.length := by
  have hle : (buf.dropWhile p).length ≤ buf.length :=
    (List.dropWhile_sublist p).length_le
  rw [h] at hle
  simp only [List.length_cons] at hle
  omega

theorem extract_go_congr (delim : Byte) :
    ∀ (f1 f2 : Nat) (buf : List Byte), buf.length ≤ f1 → buf.length ≤ f2 →
      extract_go delim f1 buf = extract_go delim f2 buf := by
  intro f1
  induction f1 with
  | zero =>
    intro f2 buf h1 _
    have hb : buf = [] := List.length_eq_zero.mp (Nat.le_zero.mp h1)
    subst hb
    cases f2 <;> simp [extract_go]
  | succ f ih =>
    intro f2 buf h1 h2
    cases f2 with
    | zero =>
      have hb : buf = [] := List.length_eq_zero.mp (Nat.le_zero.mp h2)
      subst hb
      simp [extract_go]
    | succ g =>
      cases hdw : buf.dropWhile (fun b => b != delim) with
      | nil => simp only [extract_go, hdw]
      | cons x rest =>
        have hlt := dropWhile_cons_length_lt hdw
        simp only [extract_go, hdw]
        rw [ih g rest (by omega) (by omega)]

theorem extract_eq (delim : Byte) (buf : List Byte) :
    extract_by_delimiter delim buf =
      match buf.dropWhile (fun b => b != delim) with
      | [] => ([], buf)
      | _ :: rest =>
        let line := stripCRLF (buf.takeWhile (fun b => b != delim) ++ [delim])
        let res := extract_by_delimiter delim rest
        (if line.isEmpty then res.1 else line :: res.1, res.2) := by
  cases hbuf : buf with
  | nil => simp [extract_by_delimiter, extract_go]
  | cons b bs =>
    show extract_go delim (b :: bs).length (b :: bs) = _
    cases hdw : (b :: bs).dropWhile (fun x => x != delim) with
    | nil => simp only [List.length_cons, extract_go, hdw]
    | cons x rest =>
      have hlt := dropWhile_cons_length_lt hdw
      simp only [List.length_cons] at hlt
      simp only [List.length_cons, extract_go, hdw]
      rw [extract_go_congr delim bs.length rest.length rest (by omega) le_rfl]
      rfl

theorem findCRLF_bound :
    ∀ {buf : List Byte} {pos : Nat}, findCRLF buf = some pos →
      pos + 2 ≤ buf.length ∧ buf.take (pos + 2) = buf.take pos ++ [13, 10] := by
  intro buf
  induction buf with
  | nil => intro pos h; simp [findCRLF] at h
  | cons x rest ih =>
    intro pos h
    cases rest with
    | nil => simp [findCRLF] at h
    | cons y t =>
      cases hxy : (x == 13 && y == 10) with
      | true =>
        have hx : x = 13 := by
          have := ((Bool.and_eq_true _ _).mp hxy).1
          simpa using this
        have hy : y = 10 := by
          have := ((Bool.and_eq_true _ _).mp hxy).2
          simpa using this
        have hpos : pos = 0 := by
          simp only [findCRLF, hxy, if_true] at h
          injection h with h2
          omega
        subst hpos; subst hx; subst hy
        exact ⟨by simp, rfl⟩
      | false =>
        have h2 : (findCRLF (y :: t)).map (fun v => v + 1) = some pos := by
          simp only [findCRLF, hxy, if_false] at h
          exact h
        obtain ⟨q, hq, hpos⟩ : ∃ q, findCRLF (y :: t) = some q ∧ q + 1 = pos := by
          cases hf : findCRLF (y :: t) with
          | none => rw [hf] at h2; simp at h2
          | some q =>
            rw [hf] at h2
            simp at h2
            exact ⟨q, rfl, h2⟩
        obtain ⟨hlen, htake⟩ := ih hq
        subst hpos
        constructor
        · simp only [List.length_cons] at hlen ⊢
          omega
        · have h3 : q + 1 + 2 = (q + 2) + 1 := by omega
          rw [h3, List.take_succ_cons, htake, List.take_succ_cons]
          simp

theorem extract_crlf_go_congr :
    ∀ (f1 f2 : Nat) (buf : List Byte), buf.length ≤ f1 → buf.length ≤ f2 →
      extract_crlf_go f1 buf = extract_crlf_go f2 buf := by
  intro f1
  induction f1 with
  | zero =>
    intro f2 buf h1 _
    have hb : buf = [] := List.length_eq_zero.mp (Nat.le_zero.mp h1)
    subst hb
    cases f2 <;> simp [extract_crlf_go, findCRLF]
  | succ f ih =>
    intro f2 buf h1 h2
    cases f2 with
    | zero =>
      have hb : buf = [] := List.length_eq_zero.mp (Nat.le_zero.mp h2)
      subst hb
      simp [extract_crlf_go, findCRLF]
    | succ g =>
      cases hf : findCRLF buf with
      | none => simp only [extract_crlf_go, hf]
      | some pos =>
        have hb := (findCRLF_bound hf).1
        simp only [extract_crlf_go, hf]
        rw [ih g (buf.drop (pos + 2)) (by rw [List.length_drop]; omega)
          (by rw [List.length_drop]; omega)]

/-- The defining one-step equation of `extract_by_crlf`. -/
theorem extract_crlf_eq (buf : List Byte) :
    extract_by_crlf buf =
      match findCRLF buf with
      | none => ([], buf)
      | some pos =>
        let line := stripCRLF (buf.take (pos + 2))
        let res := extract_by_crlf (buf.drop (pos + 2))
        (if line.isEmpty then res.1 else line :: res.1, res.2) := by
  cases hf : findCRLF buf with
  | none =>
    cases buf with
    | nil => simp [extract_by_crlf, extract_crlf_go]
    | cons b bs =>
      show extract_crlf_go (b :: bs).length (b :: bs) = _
      simp only [List.length_cons, extract_crlf_go, hf]
  | some pos =>
    have hb := (findCRLF_bound hf).1
    cases buf with
    | nil => simp [findCRLF] at hf
    | cons b bs =>
      show extract_crlf_go (b :: bs).length (b :: bs) = _
      simp only [List.length_cons] at hb
      simp only [List.length_cons, extract_crlf_go, hf]
      rw [extract_crlf_go_congr bs.length ((b :: bs).drop (pos + 2)).length
        ((b :: bs).drop (pos + 2))
        (by rw [List.length_drop]; simp only [List.length_cons]; omega) le_rfl]
      rfl

theorem dropWhile_head_false {p : Byte → Bool} :
    ∀ {buf : List Byte} {x : Byte} {rest : List Byte},
      buf.dropWhile p = x :: rest → p x = false := by
  intro buf
  induction buf with
  | nil => intro x rest h; simp [List.dropWhile] at h
  | cons a t ih =>
    intro x rest h
    rw [List.dropWhile_cons] at h
    by_cases hp : p a = true
    · rw [if_pos hp] at h
      exact ih h
    · rw [if_neg hp] at h
      cases h
      exact Bool.eq_false_iff.mpr hp

theorem stripCRLF_append_delim {P : List Byte} {d : Byte}
    (hd : d = 13 ∨ d = 10) (hne : P ≠ [])
    (hlast : ∀ b, P.getLast? = some b → b ≠ 13 ∧ b ≠ 10) :
    stripCRLF (P ++ [d]) = P := by
  unfold stripCRLF
  rw [List.reverse_append]
  have h1 : ([d] : List Byte).reverse = [d] := rfl
  rw [h1]
  have hpd : (d == 13 || d == 10) = true := by
    rcases hd with h | h <;> subst h <;> rfl
  rw [List.singleton_append, List.dropWhile_cons, if_pos hpd]
  cases hrev : P.reverse with
  | nil =>
    exact absurd (by simpa using congrArg List.reverse hrev) hne
  | cons h t =>
    have hh : P.getLast? = some h := by
      rw [List.getLast?_eq_head?_reverse, hrev]
      rfl
    obtain ⟨h13, h10⟩ := hlast h hh
    rw [List.dropWhile_cons, if_neg (by simp [h13, h10])]
    rw [← hrev, List.reverse_reverse]

theorem no_bad_pairs_cons_cons {x y : Byte} {t : List Byte}
    (h : no_bad_pairs (x :: y :: t) = true) :
    (!(y == 10 && (x == 13 || x == 10))) = true ∧ no_bad_pairs (y :: t) = true := by
  have e : no_bad_pairs (x :: y :: t) =
      ((!(y == 10 && (x == 13 || x == 10))) && no_bad_pairs (y :: t)) := rfl
  rw [e] at h
  exact (Bool.and_eq_true _ _).mp h

theorem no_bad_pairs_tail {x : Byte} {l : List Byte}
    (h : no_bad_pairs (x :: l) = true) : no_bad_pairs l = true := by
  cases l with
  | nil => rfl
  | cons y t => exact (no_bad_pairs_cons_cons h).2

theorem good_lines_cons {x : Byte} {l : List Byte} (h : good_lines (x :: l) = true) :
    (!(x == 10)) = true ∧ no_bad_pairs (x :: l) = true := by
  have e : good_lines (x :: l) = ((!(x == 10)) && no_bad_pairs (x :: l)) := rfl
  rw [e] at h
  exact (Bool.and_eq_true _ _).mp h

theorem good_lines_mk {x : Byte} {l : List Byte} (h1 : (!(x == 10)) = true)
    (h2 : no_bad_pairs (x :: l) = true) : good_lines (x :: l) = true := by
  have e : good_lines (x :: l) = ((!(x == 10)) && no_bad_pairs (x :: l)) := rfl
  rw [e]
  exact (Bool.and_eq_true _ _).mpr ⟨h1, h2⟩

theorem good_lines_split :
    ∀ {P rest : List Byte}, (∀ b ∈ P, b ≠ 10) →
      good_lines (P ++ 10 :: rest) = true →
      P ≠ [] ∧ (∀ b, P.getLast? = some b → b ≠ 13 ∧ b ≠ 10) ∧
        good_lines rest = true := by
  intro P
  induction P with
  | nil =>
    intro rest hmem h
    exfalso
    have := (good_lines_cons (by simpa using h)).1
    simp at this
  | cons x P ih =>
    intro rest hmem h
    have h' : good_lines (x :: (P ++ 10 :: rest)) = true := by simpa using h
    obtain ⟨hx, hnb⟩ := good_lines_cons h'
    cases P with
    | nil =>
      have hnb1 : no_bad_pairs (x :: 10 :: rest) = true := by simpa using hnb
      obtain ⟨hpair, hnb2⟩ := no_bad_pairs_cons_cons hnb1
      have hx1310 : x ≠ 13 ∧ x ≠ 10 := by simpa using hpair
      refine ⟨by simp, ?_, ?_⟩
      · intro b hb
        have hbx : x = b := by simpa using hb
        subst hbx
        exact hx1310
      · cases rest with
        | nil => rfl
        | cons y t =>
          obtain ⟨hpair2, hnb3⟩ := no_bad_pairs_cons_cons hnb2
          have hy : (!(y == 10)) = true := by simpa using hpair2
          exact good_lines_mk hy hnb3
    | cons p t =>
      have hp : (!(p == 10)) = true := by
        have := hmem p (by simp)
        simpa using this
      have hnbtail : no_bad_pairs (p :: (t ++ 10 :: rest)) = true := by
        have := no_bad_pairs_tail hnb
        simpa using this
      have hgood : good_lines ((p :: t) ++ 10 :: rest) = true := by
        simpa using good_lines_mk hp hnbtail
      obtain ⟨_, hlast, hrest⟩ := ih (fun b hb => hmem b (by simp [hb])) hgood
      refine ⟨by simp, ?_, hrest⟩
      intro b hb
      apply hlast
      rwa [List.getLast?_cons_cons] at hb

theorem take_through_last_of_free {L : List Byte} (h : ∀ b ∈ L, b ≠ 10) :
    take_through_last 10 L = [] := by
  unfold take_through_last
  have : L.reverse.dropWhile (fun b => b != 10) = [] := by
    rw [List.dropWhile_eq_nil_iff]
    intro x hx
    simpa using h x (List.mem_reverse.mp hx)
  rw [this]
  rfl

theorem take_through_last_append (P rest : List Byte) :
    take_through_last 10 (P ++ 10 :: rest) =
      (P ++ [10]) ++ take_through_last 10 rest := by
  unfold take_through_last
  rw [List.reverse_append]
  have e1 : (10 :: rest : List Byte).reverse = rest.reverse ++ [10] := by
    simp
  rw [e1, List.append_assoc, List.dropWhile_append]
  by_cases he : (rest.reverse.dropWhile (fun b => b != 10)).isEmpty
  · rw [if_pos he]
    have e2 : List.dropWhile (fun b => b != 10) ([10] ++ P.reverse) =
        10 :: P.reverse := by
      rw [List.singleton_append, List.dropWhile_cons]
      simp
    rw [e2]
    have he2 : rest.reverse.dropWhile (fun b => b != 10) = [] := by
      simpa using he
    rw [he2]
    simp
  · rw [if_neg he]
    simp

theorem extract_of_dropWhile_nil {delim : Byte} {buf : List Byte}
    (h : buf.dropWhile (fun b => b != delim) = []) :
    extract_by_delimiter delim buf = ([], buf) := by
  rw [extract_eq, h]

theorem extract_of_dropWhile_cons {delim : Byte} {buf : List Byte} {x : Byte}
    {rest : List Byte} (h : buf.dropWhile (fun b => b != delim) = x :: rest) :
    extract_by_delimiter delim buf =
      (if (stripCRLF (buf.takeWhile (fun b => b != delim) ++ [delim])).isEmpty
        then (extract_by_delimiter delim rest).1
        else stripCRLF (buf.takeWhile (fun b => b != delim) ++ [delim]) ::
          (extract_by_delimiter delim rest).1,
       (extract_by_delimiter delim rest).2) := by
  rw [extract_eq, h]

theorem extract_joinLF_aux :
    ∀ (n : Nat) (L : List Byte), L.length ≤ n → good_lines L = true →
      joinLF (extract_by_delimiter 10 L).1 = take_through_last 10 L := by
  intro n
  induction n with
  | zero =>
    intro L hlen _
    have hL : L = [] := List.length_eq_zero.mp (Nat.le_zero.mp hlen)
    subst hL
    rfl
  | succ n ih =>
    intro L hlen hgood
    cases hdw : L.dropWhile (fun b => b != 10) with
    | nil =>
      have hfree : ∀ b ∈ L, b ≠ 10 := by
        intro b hb
        have := (List.dropWhile_eq_nil_iff).mp hdw b hb
        simpa using this
      rw [extract_of_dropWhile_nil hdw, take_through_last_of_free hfree]
      rfl
    | cons x rest =>
      have hx : x = 10 := by
        have := dropWhile_head_false hdw
        simpa using this
      subst hx
      have hP : L.takeWhile (fun b => b != 10) ++ 10 :: rest = L := by
        rw [← hdw]
        exact List.takeWhile_append_dropWhile _ L
      set P := L.takeWhile (fun b => b != 10) with hPdef
      have hPfree : ∀ b ∈ P, b ≠ 10 := by
        intro b hb
        have := List.mem_takeWhile_imp hb
        simpa using this
      have hgood2 : good_lines (P ++ 10 :: rest) = true := by
        rw [hP]
        exact hgood
      obtain ⟨hne, hlast, hgrest⟩ := good_lines_split hPfree hgood2
      have hstrip : stripCRLF (P ++ [10]) = P :=
        stripCRLF_append_delim (Or.inr rfl) hne hlast
      have hlt := dropWhile_cons_length_lt hdw
      have hrec := ih rest (by omega) hgrest
      rw [extract_of_dropWhile_cons hdw]
      rw [hstrip]
      have hPne : P.isEmpty = false := by
        cases hP2 : P with
        | nil => exact absurd hP2 hne
        | cons a b => rfl
      rw [hPne]
      rw [← hP, take_through_last_append]
      show joinLF (P :: (extract_by_delimiter 10 rest).1) = _
      have hjoin : joinLF (P :: (extract_by_delimiter 10 rest).1) =
          (P ++ [10]) ++ joinLF (extract_by_delimiter 10 rest).1 := by
        simp [joinLF]
      rw [hjoin, hrec]

theorem extract_rest_free (delim : Byte) :
    ∀ (n : Nat) (buf : List Byte), buf.length ≤ n →
      (extract_by_delimiter delim buf).2.dropWhile (fun b => b != delim) = [] := by
  intro n
  induction n with
  | zero =>
    intro buf hlen
    have hb : buf = [] := List.length_eq_zero.mp (Nat.le_zero.mp hlen)
    subst hb
    rfl
  | succ n ih =>
    intro buf hlen
    cases hdw : buf.dropWhile (fun b => b != delim) with
    | nil =>
      rw [extract_of_dropWhile_nil hdw]
      exact hdw
    | cons x rest =>
      have hlt := dropWhile_cons_length_lt hdw
      rw [extract_of_dropWhile_cons hdw]
      exact ih rest (by omega)

theorem extract_append (delim : Byte) :
    ∀ (n : Nat) (A B : List Byte), A.length ≤ n →
      extract_by_delimiter delim (A ++ B) =
        ((extract_by_delimiter delim A).1 ++
           (extract_by_delimiter delim ((extract_by_delimiter delim A).2 ++ B)).1,
         (extract_by_delimiter delim ((extract_by_delimiter delim A).2 ++ B)).2) := by
  intro n
  induction n with
  | zero =>
    intro A B hlen
    have hA : A = [] := List.length_eq_zero.mp (Nat.le_zero.mp hlen)
    subst hA
    simp [extract_by_delimiter, extract_go]
  | succ n ih =>
    intro A B hlen
    cases hdw : A.dropWhile (fun b => b != delim) with
    | nil =>
      rw [extract_of_dropWhile_nil hdw]
      simp
    | cons x rest =>
      have hlt := dropWhile_cons_length_lt hdw
      have hdwAB : (A ++ B).dropWhile (fun b => b != delim) = x :: (rest ++ B) := by
        rw [List.dropWhile_append, hdw]
        simp
      have htwAB : (A ++ B).takeWhile (fun b => b != delim) =
          A.takeWhile (fun b => b != delim) := by
        have hlen1 : (A.takeWhile (fun b => b != delim)).length ≠ A.length := by
          have hsum := congrArg List.length (List.takeWhile_append_dropWhile
            (fun b => b != delim) A)
          rw [List.length_append, hdw] at hsum
          simp only [List.length_cons] at hsum
          omega
        rw [List.takeWhile_append, if_neg hlen1]
      rw [extract_of_dropWhile_cons hdwAB, extract_of_dropWhile_cons hdw, htwAB]
      rw [ih rest B (by omega)]
      by_cases hline :
          (stripCRLF (A.takeWhile (fun b => b != delim) ++ [delim])).isEmpty = true
      · rw [if_pos hline, if_pos hline]
      · rw [if_neg hline, if_neg hline]
        simp

theorem feed_fold (delim : Byte) :
    ∀ (chunks : List (List Byte)) (recs : List (List Byte)) (acc : List Byte),
      acc.dropWhile (fun b => b != delim) = [] →
      chunks.foldl (feed_chunk delim) (recs, acc) =
        (recs ++ (extract_by_delimiter delim (acc ++ chunks.flatten)).1,
         (extract_by_delimiter delim (acc ++ chunks.flatten)).2) := by
  intro chunks
  induction chunks with
  | nil =>
    intro recs acc hacc
    simp only [List.foldl_nil, List.flatten_nil, List.append_nil]
    rw [extract_of_dropWhile_nil hacc]
    simp
  | cons c cs ih =>
    intro recs acc hacc
    simp only [List.foldl_cons, List.flatten_cons]
    have hstep : feed_chunk delim (recs, acc) c =
        (recs ++ (extract_by_delimiter delim (acc ++ c)).1,
         (extract_by_delimiter delim (acc ++ c)).2) := rfl
    rw [hstep]
    rw [ih _ _ (extract_rest_free delim (acc ++ c).length (acc ++ c) le_rfl)]
    rw [← List.append_assoc]
    rw [extract_append delim (acc ++ c).length (acc ++ c) cs.flatten le_rfl]
    simp [List.append_assoc]

/-- C1 (amended): for every way of splitting a byte sequence into chunks
fed incrementally to the Line Framer under policy LF, the emitted
Records depend only on the concatenated bytes (chunk-size
independence); and provided every `\n`-terminated line of the input is
non-empty and does not end in `\r` (`good_lines`), the concatenation of
the emitted Records with `\n` reinserted after each equals the
concatenation of the input bytes up to and including the last `\n`.
(Without the proviso the reinserted concatenation is shorter, because
the framer strips trailing `\r` bytes and discards records that are
empty after stripping — see the counterexample.) -/
theorem claim_C1 (chunks : List (List Byte)) :
    (feed_chunks 10 chunks).1 = (extract_by_delimiter 10 chunks.flatten).1 ∧
    (good_lines chunks.flatten = true →
      joinLF (feed_chunks 10 chunks).1 = take_through_last 10 chunks.flatten) := by
  have hfold := feed_fold 10 chunks [] [] rfl
  have h1 : (feed_chunks 10 chunks).1 =
      (extract_by_delimiter 10 chunks.flatten).1 := by
    unfold feed_chunks
    rw [hfold]
    simp
  refine ⟨h1, fun h => ?_⟩
  rw [h1]
  exact extract_joinLF_aux chunks.flatten.length chunks.flatten le_rfl h

/-- C1 counterexample: the claim as stated fails on the single chunk
`[10]` (a bare `"\n"`): the framer discards the record that is empty
after stripping, so nothing is emitted, while the input up to and
including the last `\n` is `[10]`. -/
theorem claim_C1_cex :
    ¬ joinLF (feed_chunks 10 [[10]]).1 =
        take_through_last 10 (List.flatten [[10]]) := by
  decide

/-- C1 witness: the spec's own example, chunks `"12"` then `"3\n45\n"`,
emits `"123"` then `"45"`; with `\n` reinserted this is the whole
input. -/
theorem claim_C1_witness :
    (feed_chunks 10 [[49, 50], [51, 10, 52, 53, 10]]).1 =
      (extract_by_delimiter 10
        (List.flatten [[49, 50], [51, 10, 52, 53, 10]])).1 ∧
    joinLF (feed_chunks 10 [[49, 50], [51, 10, 52, 53, 10]]).1 =
      take_through_last 10 (List.flatten [[49, 50], [51, 10, 52, 53, 10]]) :=
  ⟨(claim_C1 [[49, 50], [51, 10, 52, 53, 10]]).1,
   (claim_C1 [[49, 50], [51, 10, 52, 53, 10]]).2 (by decide)⟩

theorem extract_crlf_of_none {buf : List Byte} (h : findCRLF buf = none) :
    extract_by_crlf buf = ([], buf) := by
  rw [extract_crlf_eq, h]

theorem extract_crlf_of_some {buf : List Byte} {pos : Nat}
    (h : findCRLF buf = some pos) :
    extract_by_crlf buf =
      (if (stripCRLF (buf.take (pos + 2))).isEmpty
        then (extract_by_crlf (buf.drop (pos + 2))).1
        else stripCRLF (buf.take (pos + 2)) ::
          (extract_by_crlf (buf.drop (pos + 2))).1,
       (extract_by_crlf (buf.drop (pos + 2))).2) := by
  rw [extract_crlf_eq, h]

theorem extract_crlf_decomp :
    ∀ (n : Nat) (buf : List Byte), buf.length ≤ n →
      findCRLF (extract_by_crlf buf).2 = none ∧
      ∃ consumed, buf = consumed ++ (extract_by_crlf buf).2 ∧
        (consumed = [] ∨ ∃ p, consumed = p ++ [13, 10]) := by
  intro n
  induction n with
  | zero =>
    intro buf hlen
    have hb : buf = [] := List.length_eq_zero.mp (Nat.le_zero.mp hlen)
    subst hb
    exact ⟨rfl, [], rfl, Or.inl rfl⟩
  | succ n ih =>
    intro buf hlen
    cases hf : findCRLF buf with
    | none =>
      rw [extract_crlf_of_none hf]
      exact ⟨hf, [], rfl, Or.inl rfl⟩
    | some pos =>
      obtain ⟨hlen2, htake⟩ := findCRLF_bound hf
      rw [extract_crlf_of_some hf]
      have hdroplen : (buf.drop (pos + 2)).length ≤ n := by
        rw [List.length_drop]
        omega
      obtain ⟨hnone, consumed2, hdec, hc⟩ := ih (buf.drop (pos + 2)) hdroplen
      refine ⟨hnone, buf.take (pos + 2) ++ consumed2, ?_, ?_⟩
      · calc buf = buf.take (pos + 2) ++ buf.drop (pos + 2) :=
              (List.take_append_drop _ _).symm
          _ = buf.take (pos + 2) ++
                (consumed2 ++ (extract_by_crlf (buf.drop (pos + 2))).2) := by
              rw [← hdec]
          _ = _ := by rw [List.append_assoc]
      · rcases hc with hc | ⟨p, hp⟩
        · subst hc
          refine Or.inr ⟨buf.take pos, ?_⟩
          rw [List.append_nil, htake]
        · subst hp
          refine Or.inr ⟨buf.take (pos + 2) ++ p, ?_⟩
          rw [List.append_assoc]

/-- C4: under policy CRLF the framer splits only at a full two-byte
`\r\n` sequence: a buffer with no adjacent `\r\n` pair (in particular
one whose `\r` bytes are all lone) yields no records and is left
unchanged; after extraction the remaining buffer contains no `\r\n`
pair, and the consumed prefix is either empty or ends with the full
two-byte delimiter (both delimiter bytes are consumed). -/
theorem claim_C4 (buf : List Byte) :
    (findCRLF buf = none → extract_by_crlf buf = ([], buf)) ∧
    findCRLF (extract_by_crlf buf).2 = none ∧
    ∃ consumed, buf = consumed ++ (extract_by_crlf buf).2 ∧
      (consumed = [] ∨ ∃ p, consumed = p ++ [13, 10]) := by
  obtain ⟨h1, h2⟩ := extract_crlf_decomp buf.length buf le_rfl
  exact ⟨fun h => extract_crlf_of_none h, h1, h2⟩

/-- C4 witness: `"a\rb"` (a lone `\r`) is not split and is retained;
`"a\rb\r\n"` is consumed in full, the consumed prefix ending with the
two delimiter bytes. -/
theorem claim_C4_witness :
    extract_by_crlf [97, 13, 98] = ([], [97, 13, 98]) ∧
    (findCRLF (extract_by_crlf [97, 13, 98, 13, 10]).2 = none ∧
      ∃ consumed, [97, 13, 98, 13, 10] =
          consumed ++ (extract_by_crlf [97, 13, 98, 13, 10]).2 ∧
        (consumed = [] ∨ ∃ p, consumed = p ++ [13, 10])) :=
  ⟨(claim_C4 [97, 13, 98]).1 (by decide), (claim_C4 [97, 13, 98, 13, 10]).2⟩

theorem extract_go_mem_ne_nil (delim : Byte) :
    ∀ (n : Nat) (buf : List Byte) (r : List Byte),
      r ∈ (extract_go delim n buf).1 → r ≠ [] := by
  intro n
  induction n with
  | zero => intro buf r h; simp [extract_go] at h
  | succ n ih =>
    intro buf r h
    cases hdw : buf.dropWhile (fun b => b != delim) with
    | nil =>
      simp only [extract_go, hdw] at h
      simp at h
    | cons x rest =>
      simp only [extract_go, hdw] at h
      by_cases hline :
          (stripCRLF (buf.takeWhile (fun b => b != delim) ++ [delim])).isEmpty = true
      · rw [if_pos hline] at h
        exact ih rest r h
      · rw [if_neg hline] at h
        rcases List.mem_cons.mp h with hr | hr
        · subst hr
          intro hc
          rw [hc] at hline
          exact hline rfl
        · exact ih rest r hr

theorem extract_crlf_go_mem_ne_nil :
    ∀ (n : Nat) (buf : List Byte) (r : List Byte),
      r ∈ (extract_crlf_go n buf).1 → r ≠ [] := by
  intro n
  induction n with
  | zero => intro buf r h; simp [extract_crlf_go] at h
  | succ n ih =>
    intro buf r h
    cases hf : findCRLF buf with
    | none =>
      simp only [extract_crlf_go, hf] at h
      simp at h
    | some pos =>
      simp only [extract_crlf_go, hf] at h
      by_cases hline : (stripCRLF (buf.take (pos + 2))).isEmpty = true
      · rw [if_pos hline] at h
        exact ih _ r h
      · rw [if_neg hline] at h
        rcases List.mem_cons.mp h with hr | hr
        · subst hr
          intro hc
          rw [hc] at hline
          exact hline rfl
        · exact ih _ r hr

theorem extract_lines_mem_ne_nil (policy : LineEnding) (buf r : List Byte) :
    r ∈ (extract_lines policy buf).1 → r ≠ [] := by
  cases policy with
  | None =>
    show r ∈ (if buf.isEmpty then ([], buf) else ([buf], [])).1 → r ≠ []
    by_cases hb : buf.isEmpty = true
    · rw [if_pos hb]
      intro h
      simp at h
    · rw [if_neg hb]
      intro h
      have hr : r = buf := by simpa using h
      subst hr
      intro hc
      rw [hc] at hb
      exact hb rfl
  | LF => exact extract_go_mem_ne_nil 10 buf.length buf r
  | CR => exact extract_go_mem_ne_nil 13 buf.length buf r
  | CrLf => exact extract_crlf_go_mem_ne_nil buf.length buf r

theorem trim_eq_drop {α : Type} (l : List α) (m : Nat) :
    (if l.length > m then l.drop (l.length - m) else l) =
      l.drop (l.length - m) := by
  split
  · rfl
  · next h =>
    have h0 : l.length - m = 0 := by omega
    rw [h0, List.drop_zero]

theorem ingest_line_raw_log (now : String) (s : UartConsoleApp) (line : String) :
    (UartConsoleApp.ingest_line now s line).raw_log =
      (s.raw_log ++ [line]).drop
        ((s.raw_log ++ [line]).length - s.settings.max_rows) := by
  show (if (s.raw_log ++ [line]).length > s.settings.max_rows
      then (s.raw_log ++ [line]).drop
        ((s.raw_log ++ [line]).length - s.settings.max_rows)
      else s.raw_log ++ [line]) = _
  exact trim_eq_drop _ _

theorem ingest_line_rows (now : String) (s : UartConsoleApp) (line : String) :
    (UartConsoleApp.ingest_line now s line).rows =
      (s.rows ++ [UartConsoleApp.parse_line now s line]).drop
        ((s.rows ++ [UartConsoleApp.parse_line now s line]).length -
          s.settings.max_rows) := by
  show (if (s.rows ++ [UartConsoleApp.parse_line now s line]).length >
        s.settings.max_rows
      then (s.rows ++ [UartConsoleApp.parse_line now s line]).drop
        ((s.rows ++ [UartConsoleApp.parse_line now s line]).length -
          s.settings.max_rows)
      else s.rows ++ [UartConsoleApp.parse_line now s line]) = _
  exact trim_eq_drop _ _

theorem lastN_append {α : Type} (N : Nat) (L M : List α) :
    ((L.drop (L.length - N)) ++ M).drop
        (((L.drop (L.length - N)) ++ M).length - N) =
      (L ++ M).drop ((L ++ M).length - N) := by
  rw [List.drop_append_eq_append_drop, List.drop_append_eq_append_drop,
    List.drop_drop]
  simp only [List.length_append, List.length_drop]
  congr 1
  · congr 1
    omega
  · congr 1
    omega

theorem ingest_line_settings (now : String) (s : UartConsoleApp) (line : String) :
    (UartConsoleApp.ingest_line now s line).settings = s.settings := rfl

theorem ingest_all_raw_log (now : String) :
    ∀ (lines : List String) (s : UartConsoleApp),
      s.raw_log.length ≤ s.settings.max_rows →
      (UartConsoleApp.ingest_all now s lines).raw_log =
        (s.raw_log ++ lines).drop
          ((s.raw_log ++ lines).length - s.settings.max_rows) := by
  intro lines
  induction lines with
  | nil =>
    intro s hlen
    show s.raw_log = _
    simp only [List.append_nil]
    have h0 : s.raw_log.length - s.settings.max_rows = 0 := by omega
    rw [h0, List.drop_zero]
  | cons l ls ih =>
    intro s hlen
    show (UartConsoleApp.ingest_all now (UartConsoleApp.ingest_line now s l) ls).raw_log = _
    have h1 := ingest_line_raw_log now s l
    have hlen1 : (UartConsoleApp.ingest_line now s l).raw_log.length ≤
        (UartConsoleApp.ingest_line now s l).settings.max_rows := by
      rw [h1, ingest_line_settings, List.length_drop]
      omega
    rw [ih _ hlen1, h1, ingest_line_settings, lastN_append]
    simp

theorem parse_line_raw (now : String) (s : UartConsoleApp) (line : String) :
    (UartConsoleApp.parse_line now s line).raw = line := rfl

theorem ingest_line_inv {now line : String} {s : UartConsoleApp}
    (h : s.rows.map (fun r => r.raw) = s.raw_log) :
    (UartConsoleApp.ingest_line now s line).rows.map (fun r => r.raw) =
      (UartConsoleApp.ingest_line now s line).raw_log := by
  have hlen : s.rows.length = s.raw_log.length := by
    rw [← h, List.length_map]
  have e1 : (s.rows ++ [UartConsoleApp.parse_line now s line]).map
        (fun r => r.raw) = s.raw_log ++ [line] := by
    rw [List.map_append, h]
    rfl
  have e2 : (s.rows ++ [UartConsoleApp.parse_line now s line]).length =
      (s.raw_log ++ [line]).length := by
    simp [hlen]
  rw [ingest_line_rows now s line, ingest_line_raw_log now s line,
    List.map_drop, e1, e2]

theorem ingest_all_inv (now : String) :
    ∀ (lines : List String) (s : UartConsoleApp),
      s.rows.map (fun r => r.raw) = s.raw_log →
      (UartConsoleApp.ingest_all now s lines).rows.map (fun r => r.raw) =
        (UartConsoleApp.ingest_all now s lines).raw_log := by
  intro lines
  induction lines with
  | nil => intro s h; exact h
  | cons l ls ih =>
    intro s h
    exact ih _ (ingest_line_inv h)

theorem reparse_all_inv {now : String} {s : UartConsoleApp}
    (h : s.rows.map (fun r => r.raw) = s.raw_log) :
    (UartConsoleApp.reparse_all now s).rows.map (fun r => r.raw) =
      (UartConsoleApp.reparse_all now s).raw_log := by
  show ((s.rows.map (fun r => r.raw)).map
      (fun raw => UartConsoleApp.parse_line now s raw)).map (fun r => r.raw) =
    s.raw_log
  rw [List.map_map, List.map_map]
  rw [← h]
  rfl

theorem compile_regex_shape (regexNew : String → Except String CompiledRegex)
    (now : String) (s : UartConsoleApp) :
    ∃ s1 : UartConsoleApp,
      UartConsoleApp.compile_regex regexNew now s =
        UartConsoleApp.reparse_all now s1 ∧
      s1.rows = s.rows ∧ s1.raw_log = s.raw_log ∧ s1.settings = s.settings ∧
      s1.serial = s.serial := by
  unfold UartConsoleApp.compile_regex
  dsimp only
  by_cases hp : s.settings.regex_pattern.isEmpty = true
  · rw [if_pos hp]
    exact ⟨_, rfl, rfl, rfl, rfl, rfl⟩
  · rw [if_neg hp]
    cases hre : regexNew s.settings.regex_pattern with
    | ok re => exact ⟨_, rfl, rfl, rfl, rfl, rfl⟩
    | error e => exact ⟨_, rfl, rfl, rfl, rfl, rfl⟩

theorem histInv_iff (s : UartConsoleApp) :
    histInv s ↔ s.rows.map (fun r => r.raw) = s.raw_log := by
  constructor
  · intro ⟨hlen, hget⟩
    apply List.ext_getElem
    · simpa using hlen
    · intro i h1 h2
      have h1' : i < s.rows.length := by simpa using h1
      have e : (s.rows.map (fun r => r.raw))[i] = (s.rows.get ⟨i, h1'⟩).raw := by
        simp [List.getElem_map]
      rw [e, hget i h1' h2]
      rfl
  · intro h
    have hlen : s.rows.length = s.raw_log.length := by
      rw [← h, List.length_map]
    refine ⟨hlen, ?_⟩
    intro i h1 h2
    have e := congrArg (fun l => l[i]?) h
    simp only [List.getElem?_map] at e
    rw [List.getElem?_eq_getElem h1] at e
    rw [List.getElem?_eq_getElem h2] at e
    simp at e
    have e2 : (s.rows.get ⟨i, h1⟩).raw = s.raw_log.get ⟨i, h2⟩ := by
      simpa using e
    exact e2

theorem parse_line_matched (now : String) (s : UartConsoleApp) (line : String) :
    (UartConsoleApp.parse_line now s line).matched =
      match s.compiled_regex with
      | some re => (re.captures line).isSome
      | none => true := by
  unfold UartConsoleApp.parse_line
  cases s.compiled_regex with
  | none => rfl
  | some re =>
    dsimp only
    cases hc : re.captures line with
    | none => simp [hc]
    | some caps => simp [hc]

/-- C9: ingesting a record, re-parsing (directly or through a pattern
recompile), and clearing the data all preserve the invariant that the
Row History and the raw History have equal length with the i-th Row's
stored raw text equal to the i-th raw History entry. -/
theorem claim_C9 (now line : String)
    (regexNew : String → Except String CompiledRegex) (s : UartConsoleApp)
    (h : histInv s) :
    histInv (UartConsoleApp.ingest_line now s line) ∧
    histInv (UartConsoleApp.reparse_all now s) ∧
    histInv (UartConsoleApp.clear_data s) ∧
    histInv (UartConsoleApp.compile_regex regexNew now s) := by
  have hm := (histInv_iff s).mp h
  refine ⟨(histInv_iff _).mpr (ingest_line_inv hm),
    (histInv_iff _).mpr (reparse_all_inv hm),
    (histInv_iff _).mpr rfl, (histInv_iff _).mpr ?_⟩
  obtain ⟨s1, he, hrows, hraw, _, _⟩ := compile_regex_shape regexNew now s
  rw [he]
  apply reparse_all_inv
  rw [hrows, hraw]
  exact hm

/-- C9 witness at a concrete one-row state. -/
theorem claim_C9_witness :
    histInv (UartConsoleApp.ingest_line "" appOneRow "b") ∧
    histInv (UartConsoleApp.reparse_all "" appOneRow) ∧
    histInv (UartConsoleApp.clear_data appOneRow) ∧
    histInv (UartConsoleApp.compile_regex failRegexNew "" appOneRow) :=
  claim_C9 "" "b" failRegexNew appOneRow ((histInv_iff _).mpr rfl)

/-- C2: starting from empty histories, after any sequence of ingestions
the raw History and the Row History each have length at most the
configured cap, and the retained entries are exactly the most recent
`max_rows` ingested records in arrival order (eviction from the
front). -/
theorem claim_C2 (now : String) (s : UartConsoleApp) (lines : List String)
    (h1 : s.rows = []) (h2 : s.raw_log = []) :
    (UartConsoleApp.ingest_all now s lines).raw_log.length ≤
      s.settings.max_rows ∧
    (UartConsoleApp.ingest_all now s lines).rows.length ≤
      s.settings.max_rows ∧
    (UartConsoleApp.ingest_all now s lines).raw_log =
      lines.drop (lines.length - s.settings.max_rows) ∧
    (UartConsoleApp.ingest_all now s lines).rows.map (fun r => r.raw) =
      lines.drop (lines.length - s.settings.max_rows) := by
  have hr := ingest_all_raw_log now lines s (by rw [h2]; simp)
  rw [h2] at hr
  simp only [List.nil_append] at hr
  have hinv := ingest_all_inv now lines s (by rw [h1, h2]; rfl)
  have hrows := hinv.trans hr
  have hlenraw : (UartConsoleApp.ingest_all now s lines).raw_log.length ≤
      s.settings.max_rows := by
    rw [hr, List.length_drop]
    omega
  have hlenrows : (UartConsoleApp.ingest_all now s lines).rows.length ≤
      s.settings.max_rows := by
    have := congrArg List.length hrows
    rw [List.length_map, List.length_drop] at this
    omega
  exact ⟨hlenraw, hlenrows, hr, hrows⟩

/-- C2 witness: the spec's example — cap 2, ingest `"a"`, `"b"`, `"c"`;
the raw History ends as `["b", "c"]`. -/
theorem claim_C2_witness :
    (UartConsoleApp.ingest_all "" appCap2 ["a", "b", "c"]).raw_log.length ≤
      appCap2.settings.max_rows ∧
    (UartConsoleApp.ingest_all "" appCap2 ["a", "b", "c"]).rows.length ≤
      appCap2.settings.max_rows ∧
    (UartConsoleApp.ingest_all "" appCap2 ["a", "b", "c"]).raw_log =
      ["a", "b", "c"].drop (["a", "b", "c"].length - appCap2.settings.max_rows) ∧
    (UartConsoleApp.ingest_all "" appCap2 ["a", "b", "c"]).rows.map
      (fun r => r.raw) =
      ["a", "b", "c"].drop (["a", "b", "c"].length - appCap2.settings.max_rows) :=
  claim_C2 "" appCap2 ["a", "b", "c"] rfl rfl

/-- C3: re-ingestion after a pattern change is total and framer-free:
applying new settings (in particular a new pattern) leaves the raw
History unchanged, rebuilds the whole Row History from the stored raw
texts with the same length as the raw History, and every resulting
Row's `matched` flag equals the result of applying the newly active
matcher (or the no-pattern default) to that Row's own raw text. -/
theorem claim_C3 (regexNew : String → Except String CompiledRegex)
    (now : String) (s : UartConsoleApp) (new_settings : Settings)
    (h : histInv s) :
    (UartConsoleApp.apply_settings regexNew now s new_settings).raw_log =
      s.raw_log ∧
    (UartConsoleApp.apply_settings regexNew now s new_settings).rows.length =
      (UartConsoleApp.apply_settings regexNew now s new_settings).raw_log.length ∧
    (UartConsoleApp.apply_settings regexNew now s new_settings).rows.map
      (fun r => r.raw) = s.raw_log ∧
    ∀ row ∈ (UartConsoleApp.apply_settings regexNew now s new_settings).rows,
      row.matched =
        match (UartConsoleApp.apply_settings regexNew now s
            new_settings).compiled_regex with
        | some re => (re.captures row.raw).isSome
        | none => true := by
  have hm := (histInv_iff s).mp h
  obtain ⟨s1, he, hrows, hraw, _, _⟩ :=
    compile_regex_shape regexNew now { s with settings := new_settings }
  have happ : UartConsoleApp.apply_settings regexNew now s new_settings =
      UartConsoleApp.reparse_all now s1 := he
  have hm1 : s1.rows.map (fun r => r.raw) = s1.raw_log := by
    rw [hrows, hraw]
    exact hm
  have hrawlog : (UartConsoleApp.reparse_all now s1).raw_log = s.raw_log := by
    show s1.raw_log = s.raw_log
    rw [hraw]
  have hinv1 := @reparse_all_inv now s1 hm1
  rw [happ]
  refine ⟨hrawlog, ?_, ?_, ?_⟩
  · have := congrArg List.length (hinv1.trans hrawlog)
    rw [List.length_map] at this
    rw [this, hrawlog]
  · exact hinv1.trans hrawlog
  · intro row hrow
    have hmem : row ∈ (s1.rows.map (fun r => r.raw)).map
        (fun raw => UartConsoleApp.parse_line now s1 raw) := hrow
    obtain ⟨raw, _, hparse⟩ := List.mem_map.mp hmem
    subst hparse
    have hcr : (UartConsoleApp.reparse_all now s1).compiled_regex =
        s1.compiled_regex := rfl
    rw [hcr, parse_line_raw, parse_line_matched]

/-- C3 witness at a concrete one-row state with a successfully compiling
two-group pattern. -/
theorem claim_C3_witness :
    (UartConsoleApp.apply_settings testRegexNew "" appOneRow
      { Settings.default with regex_pattern := "p" }).raw_log =
      appOneRow.raw_log ∧
    (UartConsoleApp.apply_settings testRegexNew "" appOneRow
      { Settings.default with regex_pattern := "p" }).rows.length =
      (UartConsoleApp.apply_settings testRegexNew "" appOneRow
        { Settings.default with regex_pattern := "p" }).raw_log.length ∧
    (UartConsoleApp.apply_settings testRegexNew "" appOneRow
      { Settings.default with regex_pattern := "p" }).rows.map
      (fun r => r.raw) = appOneRow.raw_log ∧
    ∀ row ∈ (UartConsoleApp.apply_settings testRegexNew "" appOneRow
        { Settings.default with regex_pattern := "p" }).rows,
      row.matched =
        match (UartConsoleApp.apply_settings testRegexNew "" appOneRow
            { Settings.default with regex_pattern := "p" }).compiled_regex with
        | some re => (re.captures row.raw).isSome
        | none => true :=
  claim_C3 testRegexNew "" appOneRow
    { Settings.default with regex_pattern := "p" }
    ((histInv_iff _).mpr rfl)

/-- C10: when a non-empty pattern fails to compile, `compile_regex`
clears the active compiled pattern, zeroes the column count, and
replaces every existing Row by its no-pattern re-parse: one column equal
to the Row's raw text and `matched = true`. -/
theorem claim_C10 (regexNew : String → Except String CompiledRegex)
    (now : String) (s : UartConsoleApp) (e : String)
    (hp : s.settings.regex_pattern ≠ "")
    (hc : regexNew s.settings.regex_pattern = Except.error e) :
    (UartConsoleApp.compile_regex regexNew now s).compiled_regex = none ∧
    (UartConsoleApp.compile_regex regexNew now s).num_columns = 0 ∧
    (UartConsoleApp.compile_regex regexNew now s).rows =
      s.rows.map (fun r =>
        { timestamp := if s.settings.show_timestamp then now else ""
          raw := r.raw
          columns := [r.raw]
          matched := true }) := by
  have hp2 : s.settings.regex_pattern.isEmpty = false := by
    cases he : s.settings.regex_pattern.isEmpty
    · rfl
    · exact absurd ((String.isEmpty_iff _).mp he) hp
  unfold UartConsoleApp.compile_regex
  dsimp only
  rw [hp2, hc]
  simp only [Bool.false_eq_true, if_false]
  refine ⟨rfl, rfl, ?_⟩
  show (s.rows.map (fun r => r.raw)).map _ = _
  rw [List.map_map]
  rfl

/-- C10 witness: a one-row state with pattern `"("` and a failing
compiler capability. -/
theorem claim_C10_witness :
    (UartConsoleApp.compile_regex failRegexNew "t" appOneRow).compiled_regex =
      none ∧
    (UartConsoleApp.compile_regex failRegexNew "t" appOneRow).num_columns = 0 ∧
    (UartConsoleApp.compile_regex failRegexNew "t" appOneRow).rows =
      appOneRow.rows.map (fun r =>
        { timestamp := if appOneRow.settings.show_timestamp then "t" else ""
          raw := r.raw
          columns := [r.raw]
          matched := true }) :=
  claim_C10 failRegexNew "t" appOneRow "unclosed group" (by decide) rfl

theorem ingest_line_no_empty {now line : String} {s : UartConsoleApp}
    (hraw : "" ∉ s.raw_log) (hrows : ∀ row ∈ s.rows, row.raw ≠ "")
    (hline : line ≠ "") :
    "" ∉ (UartConsoleApp.ingest_line now s line).raw_log ∧
    ∀ row ∈ (UartConsoleApp.ingest_line now s line).rows, row.raw ≠ "" := by
  constructor
  · intro hmem
    rw [ingest_line_raw_log] at hmem
    have h2 := List.mem_of_mem_drop hmem
    rcases List.mem_append.mp h2 with h3 | h3
    · exact hraw h3
    · exact hline (List.mem_singleton.mp h3).symm
  · intro row hmem
    rw [ingest_line_rows] at hmem
    have h2 := List.mem_of_mem_drop hmem
    rcases List.mem_append.mp h2 with h3 | h3
    · exact hrows row h3
    · have hr := List.mem_singleton.mp h3
      subst hr
      rw [parse_line_raw]
      exact hline

theorem ingest_all_no_empty (now : String) :
    ∀ (lines : List String) (s : UartConsoleApp),
      "" ∉ s.raw_log → (∀ row ∈ s.rows, row.raw ≠ "") →
      (∀ l ∈ lines, l ≠ "") →
      "" ∉ (UartConsoleApp.ingest_all now s lines).raw_log ∧
      ∀ row ∈ (UartConsoleApp.ingest_all now s lines).rows, row.raw ≠ "" := by
  intro lines
  induction lines with
  | nil => intro s h1 h2 _; exact ⟨h1, h2⟩
  | cons l ls ih =>
    intro s h1 h2 h3
    have hstep := @ingest_line_no_empty now l s h1 h2 (h3 l (by simp))
    exact ih _ hstep.1 hstep.2 (fun x hx => h3 x (by simp [hx]))

/-- C5: under every delimiter policy the framer never emits a record
that is empty after delimiter stripping; consequently, starting from
histories free of the empty string and feeding only the (non-empty)
framer records, the empty string never appears in the raw History and
no Row's raw text is empty. -/
theorem claim_C5 :
    (∀ (policy : LineEnding) (buf r : List Byte),
      r ∈ (extract_lines policy buf).1 → r ≠ []) ∧
    (∀ (now : String) (lines : List String) (s : UartConsoleApp),
      "" ∉ s.raw_log → (∀ row ∈ s.rows, row.raw ≠ "") →
      (∀ l ∈ lines, l ≠ "") →
      "" ∉ (UartConsoleApp.ingest_all now s lines).raw_log ∧
      ∀ row ∈ (UartConsoleApp.ingest_all now s lines).rows, row.raw ≠ "") :=
  ⟨extract_lines_mem_ne_nil,
   fun now lines s h1 h2 h3 => ingest_all_no_empty now lines s h1 h2 h3⟩

/-- C5 witness: the record `"a"` extracted from `"a\n"` under LF is
non-empty, and ingesting `["a"]` into empty histories leaves no empty
string in either history. -/
theorem claim_C5_witness :
    [97] ≠ ([] : List Byte) ∧
    ("" ∉ (UartConsoleApp.ingest_all "" appCap2 ["a"]).raw_log ∧
      ∀ row ∈ (UartConsoleApp.ingest_all "" appCap2 ["a"]).rows,
        row.raw ≠ "") :=
  ⟨claim_C5.1 LineEnding.LF [97, 10] [97] (by decide),
   claim_C5.2 "" ["a"] appCap2 (by decide) (by decide) (by decide)⟩

theorem process_cmds_sends :
    ∀ sends : List (List Byte × Option String),
      process_cmds (sends.map (fun p => (SerialCommand.Send p.1, p.2))) false =
        (sends.filterMap (fun p =>
          p.2.map (fun e => SerialEvent.Error ("Write error: " ++ e))), true) := by
  intro sends
  induction sends with
  | nil => rfl
  | cons p ps ih =>
    obtain ⟨data, wr⟩ := p
    cases wr with
    | none => exact ih
    | some e =>
      simp only [List.map_cons]
      have estep : process_cmds ((SerialCommand.Send data, some e) ::
          ps.map (fun p => (SerialCommand.Send p.1, p.2))) false =
        (SerialEvent.Error ("Write error: " ++ e) ::
          (process_cmds (ps.map (fun p => (SerialCommand.Send p.1, p.2)))
            false).1,
         (process_cmds (ps.map (fun p => (SerialCommand.Send p.1, p.2)))
            false).2) := rfl
      rw [estep, ih]
      rfl

/-- C6: in one iteration of the worker loop, (a) with only `Send`
commands queued and nothing read, the emitted events are exactly one
`Error` per failed write and the loop continues in Running; (b) a
single failed `Send` emits exactly one `Error` event and the loop
continues; (c) a non-timeout read error emits an `Error` event
immediately followed by `Disconnected` and the iteration returns `none`
— the thread returns, so Stopped is terminal; (d) a read timeout emits
no event and continues the loop with the buffer intact. -/
theorem claim_C6 (rx : LineEnding) (rx_buf : List Byte) :
    (∀ sends : List (List Byte × Option String),
      worker_iter rx rx_buf
        (sends.map (fun p => (SerialCommand.Send p.1, p.2))) false
        ReadResult.timedOut =
      (sends.filterMap (fun p =>
        p.2.map (fun e => SerialEvent.Error ("Write error: " ++ e))),
       some rx_buf)) ∧
    (∀ (data : List Byte) (e : String),
      worker_iter rx rx_buf [(SerialCommand.Send data, some e)] false
        ReadResult.timedOut =
      ([SerialEvent.Error ("Write error: " ++ e)], some rx_buf)) ∧
    (∀ e : String, worker_iter rx rx_buf [] false (ReadResult.err e) =
      ([SerialEvent.Error ("Read error: " ++ e), SerialEvent.Disconnected],
       none)) ∧
    worker_iter rx rx_buf [] false ReadResult.timedOut = ([], some rx_buf) := by
  refine ⟨?_, fun data e => rfl, fun e => rfl, rfl⟩
  intro sends
  unfold worker_iter
  rw [process_cmds_sends]
  rfl

/-- C7: `connect` with an empty device identifier fails synchronously:
the caller receives the error as the function's return value, and no
worker thread is spawned — since the worker is the sole producer of
events, the attempt produces no events. -/
theorem claim_C7 (openRes : Except String Unit) (m : SerialPortManager)
    (settings : Settings) (h : settings.port_name = "") :
    (SerialPortManager.connect openRes m settings).2.1 =
      Except.error "No port selected" ∧
    (SerialPortManager.connect openRes m settings).2.2 = false := by
  have he : settings.port_name.isEmpty = true := by
    rw [h]
    rfl
  unfold SerialPortManager.connect
  rw [he]
  exact ⟨rfl, rfl⟩

/-- C7 witness: the default settings carry an empty port name. -/
theorem claim_C7_witness :
    (SerialPortManager.connect (Except.ok ()) SerialPortManager.new
      Settings.default).2.1 = Except.error "No port selected" ∧
    (SerialPortManager.connect (Except.ok ()) SerialPortManager.new
      Settings.default).2.2 = false :=
  claim_C7 (Except.ok ()) SerialPortManager.new Settings.default rfl

/-- C8: while a connection is active, applying new settings triggers an
automatic reconnect if and only if the device identifier (port name) or
the baud rate differs from the active settings; a change to only the
terminators, the pattern, or any other field does not trigger a
reconnect. -/
theorem claim_C8 (regexNew : String → Except String CompiledRegex)
    (now : String) (openRes : Except String Unit) (s : UartConsoleApp)
    (new_settings : Settings) :
    (UartConsoleApp.update_apply_settings regexNew now openRes s
        new_settings).2 =
      (s.serial.is_connected &&
        (new_settings.port_name != s.settings.port_name ||
         new_settings.baud_rate != s.settings.baud_rate)) ∧
    (new_settings.port_name = s.settings.port_name →
      new_settings.baud_rate = s.settings.baud_rate →
      (UartConsoleApp.update_apply_settings regexNew now openRes s
        new_settings).2 = false) := by
  have e : (UartConsoleApp.update_apply_settings regexNew now openRes s
      new_settings).2 =
      (s.serial.is_connected &&
        (new_settings.port_name != s.settings.port_name ||
         new_settings.baud_rate != s.settings.baud_rate)) := by
    unfold UartConsoleApp.update_apply_settings
    dsimp only
    by_cases hc : (s.serial.is_connected &&
        (new_settings.port_name != s.settings.port_name ||
         new_settings.baud_rate != s.settings.baud_rate)) = true
    · rw [if_pos hc, hc]
    · rw [if_neg hc]
      cases hb : (s.serial.is_connected &&
          (new_settings.port_name != s.settings.port_name ||
           new_settings.baud_rate != s.settings.baud_rate))
      · rfl
      · exact absurd hb hc
  refine ⟨e, fun h1 h2 => ?_⟩
  rw [e, h1, h2]
  simp

/-- C8 witness: a connected app; only the transmit terminator and the
pattern change, so no reconnect is attempted. -/
theorem claim_C8_witness :
    (UartConsoleApp.update_apply_settings testRegexNew "" (Except.ok ())
        appConnected
        { Settings.default with
          tx_line_ending := LineEnding.LF, regex_pattern := "x" }).2 =
      (appConnected.serial.is_connected &&
        (({ Settings.default with
            tx_line_ending := LineEnding.LF,
            regex_pattern := "x" } : Settings).port_name !=
            appConnected.settings.port_name ||
         ({ Settings.default with
            tx_line_ending := LineEnding.LF,
            regex_pattern := "x" } : Settings).baud_rate !=
            appConnected.settings.baud_rate)) ∧
    (({ Settings.default with
        tx_line_ending := LineEnding.LF,
        regex_pattern := "x" } : Settings).port_name =
        appConnected.settings.port_name →
      ({ Settings.default with
        tx_line_ending := LineEnding.LF,
        regex_pattern := "x" } : Settings).baud_rate =
        appConnected.settings.baud_rate →
      (UartConsoleApp.update_apply_settings testRegexNew "" (Except.ok ())
        appConnected
        { Settings.default with
          tx_line_ending := LineEnding.LF, regex_pattern := "x" }).2 = false) :=
  claim_C8 testRegexNew "" (Except.ok ()) appConnected
    { Settings.default with
      tx_line_ending := LineEnding.LF, regex_pattern := "x" }
